import Mathlib

/-!
Shallow embedding of `src/HW07_AddressBook.py` (a contact manager with
phone/birthday validation, an upcoming-birthdays query and JSON persistence),
together with theorems settling the specification claims.

Python strings are modelled as `List Char`; Python exceptions (`ValueError`,
raised by the validating constructors, and the `ValueError` escaping
`date.replace`) are modelled by `Option`/`none` results.  `Phone` objects
carry no state beyond their validated `value` string, and `Birthday` objects
none beyond their parsed `date`, so both are represented by the payload
directly.
-/

namespace HW07

abbrev PyStr := List Char

def isAsciiDigit (c : Char) : Bool := '0' ≤ c && c ≤ '9'

/-- Models Python's `str.isdigit` on single characters, restricted to the
character ranges exercised in this development: it is `true` on the ASCII
digits and on the Arabic-Indic digits U+0660–U+0669 (characters with Unicode
property `Numeric_Type=Decimal`, which CPython's `str.isdigit` accepts).
Other Unicode digit characters, which CPython also accepts, are omitted here
(an under-approximation of CPython). -/
def pyIsDigit (c : Char) : Bool :=
  isAsciiDigit c || (1632 ≤ c.toNat && c.toNat ≤ 1641)

/-- The numeric value CPython's `int` assigns to a digit character
(again restricted to ASCII and Arabic-Indic digits). -/
def pyDigitVal (c : Char) : Nat :=
  if isAsciiDigit c then c.toNat - 48
  else if 1632 ≤ c.toNat && c.toNat ≤ 1641 then c.toNat - 1632
  else 0

/-- Models `Phone.__init__`: accepts `value` iff `value.isdigit() and len(value) == 10`
(`str.isdigit` requires a non-empty all-digit string); the exact input string
is stored.  `none` models the raised `ValueError`. -/
def Phone.init (value : PyStr) : Option PyStr :=
  if value ≠ [] ∧ value.all pyIsDigit ∧ value.length = 10 then some value else none

/-- A proleptic-Gregorian calendar date, as held by Python's `datetime.date`. -/
structure Date where
  year : Nat
  month : Nat
  day : Nat
deriving DecidableEq, Repr

def isLeap (y : Nat) : Bool := (y % 4 == 0 && y % 100 != 0) || y % 400 == 0

def daysInMonth (y m : Nat) : Nat :=
  match m with
  | 1 => 31
  | 2 => if isLeap y then 29 else 28
  | 3 => 31
  | 4 => 30
  | 5 => 31
  | 6 => 30
  | 7 => 31
  | 8 => 31
  | 9 => 30
  | 10 => 31
  | 11 => 30
  | 12 => 31
  | _ => 0

/-- Models `datetime.date(y, m, d)` succeeds exactly on these triples
(`MINYEAR = 1`, `MAXYEAR = 9999`). -/
def validDate (d : Date) : Bool :=
  1 ≤ d.year && d.year ≤ 9999 && 1 ≤ d.month && d.month ≤ 12 &&
    1 ≤ d.day && d.day ≤ daysInMonth d.year d.month

-- strptime("%d.%m.%Y") tokenisation, following CPython `_strptime`:
-- the day directive compiles to the regex `3[01]|[12]\d|0[1-9]|[1-9]`,
-- the month directive to `1[0-2]|0[1-9]|[1-9]`, and `%Y` to `\d\d\d\d`,
-- glued with literal dots and required to consume the whole input.
-- `\d` matches any Unicode decimal digit; the explicit character classes
-- are ASCII-only.

def dayTok (t : PyStr) : Option Nat :=
  match t with
  | [c] => if '1' ≤ c ∧ c ≤ '9' then some (pyDigitVal c) else none
  | [c1, c2] =>
    if c1 = '3' ∧ (c2 = '0' ∨ c2 = '1') then some (30 + pyDigitVal c2)
    else if (c1 = '1' ∨ c1 = '2') ∧ pyIsDigit c2 = true then
      some (10 * pyDigitVal c1 + pyDigitVal c2)
    else if c1 = '0' ∧ '1' ≤ c2 ∧ c2 ≤ '9' then some (pyDigitVal c2)
    else none
  | _ => none

def monthTok (t : PyStr) : Option Nat :=
  match t with
  | [c] => if '1' ≤ c ∧ c ≤ '9' then some (pyDigitVal c) else none
  | [c1, c2] =>
    if c1 = '1' ∧ (c2 = '0' ∨ c2 = '1' ∨ c2 = '2') then some (10 + pyDigitVal c2)
    else if c1 = '0' ∧ '1' ≤ c2 ∧ c2 ≤ '9' then some (pyDigitVal c2)
    else none
  | _ => none

def yearTok (t : PyStr) : Option Nat :=
  match t with
  | [c1, c2, c3, c4] =>
    if pyIsDigit c1 ∧ pyIsDigit c2 ∧ pyIsDigit c3 ∧ pyIsDigit c4 then
      some (1000 * pyDigitVal c1 + 100 * pyDigitVal c2 + 10 * pyDigitVal c3 + pyDigitVal c4)
    else none
  | _ => none

def splitOnDot : PyStr → List PyStr
  | [] => [[]]
  | c :: cs =>
    if c = '.' then [] :: splitOnDot cs
    else
      match splitOnDot cs with
      | [] => [[c]]
      | t :: ts => (c :: t) :: ts

/-- Models `datetime.strptime(s, "%d.%m.%Y").date()`: tokenise against the compiled
pattern (whole-string match), then build a `date`, which re-validates the
day against the month length.  `none` models the raised `ValueError`. -/
def pyStrptimeDMY (s : PyStr) : Option Date :=
  match splitOnDot s with
  | [dt, mt, yt] =>
    match dayTok dt, monthTok mt, yearTok yt with
    | some d, some m, some y =>
      if validDate ⟨y, m, d⟩ then some ⟨y, m, d⟩ else none
    | _, _, _ => none
  | _ => none

/-- Models `Birthday.__init__`: parses via `strptime("%d.%m.%Y")` and stores the
resulting `date`. -/
def Birthday.init (value : PyStr) : Option Date := pyStrptimeDMY value

/-- A `Record`: a `Name` (a bare stored string), a list of `Phone`s
(represented by their value strings) and an optional `Birthday`
(represented by its parsed date). -/
structure Record where
  name : PyStr
  phones : List PyStr
  birthday : Option Date
deriving DecidableEq, Repr

/-- Models `Record.__init__(name)`: stores `Name(name)` verbatim — the source
performs no validation of any kind on the name — with no phones and no
birthday.  It cannot fail. -/
def Record.init (name : PyStr) : Record := ⟨name, [], none⟩

/-- Models `Record.add_phone`: validates via `Phone(...)` (which may raise), then
appends unless a phone with the same value is already present. -/
def Record.add_phone (r : Record) (phone_str : PyStr) : Option Record :=
  match Phone.init phone_str with
  | none => none
  | some p =>
    if r.phones.any (fun q => q = p) then some r
    else some ⟨r.name, r.phones ++ [p], r.birthday⟩

/-- Models `Record.remove_phone`: removes the first stored phone whose value equals
`phone_str`, if any; silent no-op otherwise. -/
def Record.remove_phone (r : Record) (phone_str : PyStr) : Record :=
  ⟨r.name, r.phones.erase phone_str, r.birthday⟩

def editPhoneList : List PyStr → PyStr → PyStr → Option (List PyStr × Bool)
  | [], _, _ => some ([], false)
  | p :: ps, oldp, newp =>
    if p = oldp then
      match Phone.init newp with
      | none => none
      | some np => some (np :: ps, true)
    else
      match editPhoneList ps oldp newp with
      | none => none
      | some (ps2, b) => some (p :: ps2, b)

/-- Models `Record.edit_phone`: scans for the first phone equal to `old_phone`; at
that point (and only then) the new number is validated by constructing
`Phone(new_phone)` — which may raise — and the slot is overwritten in place,
returning `True`.  If no phone matches, returns `False` untouched. -/
def Record.edit_phone (r : Record) (old_phone new_phone : PyStr) :
    Option (Record × Bool) :=
  match editPhoneList r.phones old_phone new_phone with
  | none => none
  | some (ps, b) => some (⟨r.name, ps, r.birthday⟩, b)

/-- Models `Record.add_birthday`: sets or replaces the birthday; validation may
raise. -/
def Record.add_birthday (r : Record) (bday_str : PyStr) : Option Record :=
  match Birthday.init bday_str with
  | none => none
  | some d => some ⟨r.name, r.phones, some d⟩

/-- The `AddressBook`'s underlying `dict`: an insertion-ordered list of
(key, record) pairs with unique keys. -/
abbrev AddressBook := List (PyStr × Record)

/-- Python `dict` assignment `data[n] = rec`: overwrite in place if the key
exists, else append at the end. -/
def dictSet : AddressBook → PyStr → Record → AddressBook
  | [], n, rec => [(n, rec)]
  | kv :: rest, n, rec =>
    if kv.1 = n then (n, rec) :: rest else kv :: dictSet rest n rec

/-- Models `AddressBook.add_record`: `self.data[record.name.value] = record`. -/
def AddressBook.add_record (book : AddressBook) (rec : Record) : AddressBook :=
  dictSet book rec.name rec

/-- Models `AddressBook.find`: returns the record stored under `name`, else raises
`KeyError` (modelled by `none`). -/
def AddressBook.find : AddressBook → PyStr → Option Record
  | [], _ => none
  | kv :: rest, n => if kv.1 = n then some kv.2 else AddressBook.find rest n

def eraseKey : AddressBook → PyStr → AddressBook
  | [], _ => []
  | kv :: rest, n => if kv.1 = n then rest else kv :: eraseKey rest n

/-- Models `AddressBook.delete`: deletes the entry and returns `True` when the name
is present, else `False`. -/
def AddressBook.delete (book : AddressBook) (n : PyStr) : AddressBook × Bool :=
  if book.any (fun kv => kv.1 = n) then (eraseKey book n, true) else (book, false)

-- date arithmetic used by get_upcoming_birthdays

/-- Models `date.replace(year := y)`: rebuilds the date with the new year, which
re-validates it (Feb 29 onto a non-leap year raises). -/
def replaceYear (d : Date) (y : Nat) : Option Date :=
  if validDate ⟨y, d.month, d.day⟩ then some ⟨y, d.month, d.day⟩ else none

/-- Models `datetime.date` comparison: lexicographic on (year, month, day). -/
def dateLt (a b : Date) : Bool :=
  a.year < b.year ||
    (a.year == b.year &&
      (a.month < b.month || (a.month == b.month && a.day < b.day)))

def daysBeforeYear (y : Nat) : Nat :=
  365 * (y - 1) + (y - 1) / 4 + (y - 1) / 400 - (y - 1) / 100

def daysBeforeMonth (y m : Nat) : Nat :=
  (List.range (m - 1)).foldl (fun a i => a + daysInMonth y (i + 1)) 0

/-- Models `date.toordinal()`: day 1 is 0001-01-01. -/
def toOrdinal (d : Date) : Nat :=
  daysBeforeYear d.year + daysBeforeMonth d.year d.month + d.day

/-- Models `(a - b).days` for two dates. -/
def daysAhead (today d : Date) : Int :=
  (toOrdinal d : Int) - (toOrdinal today : Int)

/-- Models `date.weekday()`: Monday = 0 … Sunday = 6 (0001-01-01 is a Monday). -/
def weekday (d : Date) : Nat := (toOrdinal d + 6) % 7

/-- The calendar successor of a date (what `+ timedelta(days=1)` computes). -/
def nextDay (d : Date) : Date :=
  if d.day < daysInMonth d.year d.month then ⟨d.year, d.month, d.day + 1⟩
  else if d.month < 12 then ⟨d.year, d.month + 1, 1⟩
  else ⟨d.year + 1, 1, 1⟩

/-- Models `d + timedelta(days := n)`. -/
def addDays (d : Date) : Nat → Date
  | 0 => d
  | n + 1 => nextDay (addDays d n)

/-- Lines 191–194 of the source: project the stored birthday onto `today`'s
year with `replace`, and if the result is strictly before `today`, re-project
onto the next year.  Either `replace` may raise (`none`). -/
def projectBirthday (today b : Date) : Option Date :=
  match replaceYear b today.year with
  | none => none
  | some bty =>
    if dateLt bty today then replaceYear b (today.year + 1) else some bty

/-- Weekend rollover (lines 201–206): Saturday (`weekday = 5`) moves the
greeting 2 days ahead, Sunday (`weekday = 6`) 1 day ahead. -/
def shiftWeekend (d : Date) : Date :=
  if weekday d = 5 then addDays d 2
  else if weekday d = 6 then addDays d 1
  else d

def digChar (k : Nat) : Char :=
  match k with
  | 0 => '0'
  | 1 => '1'
  | 2 => '2'
  | 3 => '3'
  | 4 => '4'
  | 5 => '5'
  | 6 => '6'
  | 7 => '7'
  | 8 => '8'
  | _ => '9'

def pad2 (n : Nat) : PyStr := [digChar (n / 10), digChar (n % 10)]

def pad4 (n : Nat) : PyStr :=
  [digChar (n / 1000), digChar (n / 100 % 10), digChar (n / 10 % 10),
    digChar (n % 10)]

/-- Models `strftime("%Y.%m.%d")` (zero-padded groups). -/
def formatYMD (d : Date) : PyStr :=
  pad4 d.year ++ ('.' :: (pad2 d.month ++ ('.' :: pad2 d.day)))

/-- Models `strftime("%d.%m.%Y")` (zero-padded groups). -/
def formatDMY (d : Date) : PyStr :=
  pad2 d.day ++ ('.' :: (pad2 d.month ++ ('.' :: pad4 d.year)))

/-- One element of the list returned by `get_upcoming_birthdays`:
`{"name": ..., "congratulation_date": ...}`. -/
structure UpEntry where
  name : PyStr
  congratulation_date : PyStr
deriving DecidableEq, Repr

/-- The loop body of `get_upcoming_birthdays` for one record:
`some none` = skipped (no birthday, or outside the 7-day window),
`some (some e)` = entry emitted, `none` = an exception escaped. -/
def upcomingFor (today : Date) (rec : Record) : Option (Option UpEntry) :=
  match rec.birthday with
  | none => some none
  | some b =>
    match projectBirthday today b with
    | none => none
    | some bty =>
      if 0 ≤ daysAhead today bty ∧ daysAhead today bty ≤ 6 then
        some (some ⟨rec.name, formatYMD (shiftWeekend bty)⟩)
      else some none

/-- Models `AddressBook.get_upcoming_birthdays`, with the current date injected as
`today` (the source reads `date.today()`; the algorithm is a pure function
of that value).  Records are visited in dictionary order; an exception
anywhere aborts the whole call (`none`). -/
def get_upcoming_birthdays (today : Date) : AddressBook → Option (List UpEntry)
  | [] => some []
  | kv :: rest =>
    match upcomingFor today kv.2 with
    | none => none
    | some none => get_upcoming_birthdays today rest
    | some (some e) =>
      match get_upcoming_birthdays today rest with
      | none => none
      | some l => some (e :: l)

-- persistence (save_address_book / load_address_book)

/-- One value of the persisted JSON object:
`{"phones": [...], "birthday": "DD.MM.YYYY" or null}`. -/
structure SavedRecord where
  phones : List PyStr
  birthday : Option PyStr
deriving DecidableEq, Repr

/-- Models `save_address_book`: serialises each record to its phone strings and its
birthday rendered with `strftime("%d.%m.%Y")` (or null), keyed by name. -/
def save_address_book (book : AddressBook) : List (PyStr × SavedRecord) :=
  book.map (fun kv => (kv.1, ⟨(kv.2).phones, ((kv.2).birthday).map formatDMY⟩))

/-- The phone-loading loop of `load_address_book`: each phone is re-added
through `add_phone`; a `ValueError` is logged and the phone skipped. -/
def loadPhones (r : Record) (ps : List PyStr) : Record :=
  ps.foldl (fun r p => match r.add_phone p with | none => r | some r2 => r2) r

/-- Reconstruction of one record in `load_address_book`: fresh `Record`,
phones re-added (invalid ones skipped), then the birthday re-parsed when the
stored string is truthy (absent or empty skips; a `ValueError` is logged and
skipped). -/
def loadRecord (nm : PyStr) (sr : SavedRecord) : Record :=
  let r1 := loadPhones (Record.init nm) sr.phones
  match sr.birthday with
  | none => r1
  | some bs =>
    if bs = [] then r1
    else match r1.add_birthday bs with | none => r1 | some r2 => r2

/-- Models `load_address_book` applied to parsed JSON data: rebuild each record and
`add_record` it, starting from an empty book. -/
def load_address_book (data : List (PyStr × SavedRecord)) : AddressBook :=
  data.foldl (fun bk kv => bk.add_record (loadRecord kv.1 kv.2)) []

/-- Replacement of the first occurrence of `oldp` by `np` in a phone list
(the mutation `self.phones[idx] = new_phone_obj` performs at the first
matching index). -/
def replaceFirst : List PyStr → PyStr → PyStr → List PyStr
  | [], _, _ => []
  | p :: ps, oldp, np => if p = oldp then np :: ps else p :: replaceFirst ps oldp np

def natOfDigits (t : PyStr) : Nat := t.foldl (fun a c => 10 * a + pyDigitVal c) 0

/-- Refinement-side rendering of the spec's words for claim C6 (not taken
from the source): a *strict* two-digit-day, two-digit-month, four-digit-year
pattern separated by periods, whose components form a real calendar date. -/
def specStrictDMY (s : PyStr) : Bool :=
  match splitOnDot s with
  | [dt, mt, yt] =>
    dt.length = 2 && dt.all isAsciiDigit && mt.length = 2 && mt.all isAsciiDigit &&
      yt.length = 4 && yt.all isAsciiDigit &&
      validDate ⟨natOfDigits yt, natOfDigits mt, natOfDigits dt⟩
  | _ => false

/-- Refinement-side rendering of the *amended* claim C6 (not taken from the
source): a day.month.year shape with a one- or two-digit day, a one- or
two-digit month, and a four-digit year, separated by periods, whose digit
values form a real calendar date. -/
def specLaxDMY (s : PyStr) : Bool :=
  match splitOnDot s with
  | [dt, mt, yt] =>
    (1 ≤ dt.length && dt.length ≤ 2) && dt.all pyIsDigit &&
      (1 ≤ mt.length && mt.length ≤ 2) && mt.all pyIsDigit &&
      yt.length = 4 && yt.all pyIsDigit &&
      validDate ⟨natOfDigits yt, natOfDigits mt, natOfDigits dt⟩
  | _ => false

/-- The ten-character phone string `"1111111111"`. -/
def ones10 : PyStr := List.replicate 10 '1'

/-- The ten-character phone string `"2222222222"`. -/
def twos10 : PyStr := List.replicate 10 '2'

-- ------------------------------------------------------------------
-- theorems
-- ------------------------------------------------------------------

/-- A successfully constructed `Phone` stores exactly the input string. -/
theorem Phone.init_eq (s v : PyStr) (h : Phone.init s = some v) : v = s := by
  unfold Phone.init at h
  split at h
  · exact (Option.some.inj h).symm
  · exact absurd h (by simp)

/-- Claim C3, counterexample: a string of ten Arabic-Indic digits (U+0662)
is accepted by the `Phone` validator even though none of its characters is
an ASCII decimal digit, refuting "succeeds if and only if raw consists of
exactly 10 ASCII decimal digits". -/
theorem parse_phone_accepts_nonascii_digits :
    (Phone.init (List.replicate 10 (Char.ofNat 1634))).isSome = true ∧
      (List.replicate 10 (Char.ofNat 1634)).all isAsciiDigit = false := by
  decide

/-- Claim C3, amended: `Phone` construction succeeds iff the input has
length 10 and every character is a digit in Python's `str.isdigit` sense
(a strict superset of the ASCII digits); on success the exact input string
is stored, so it round-trips on display. -/
theorem parse_phone_characterization (s : PyStr) :
    ((Phone.init s).isSome = true ↔ s.length = 10 ∧ s.all pyIsDigit = true) ∧
      ∀ v, Phone.init s = some v → v = s := by
  refine ⟨⟨fun h => ?_, fun h => ?_⟩, fun v hv => Phone.init_eq s v hv⟩
  · unfold Phone.init at h
    split at h
    · next hc => exact ⟨hc.2.2, hc.2.1⟩
    · simp at h
  · unfold Phone.init
    rw [if_pos ⟨fun he => by simp [he] at h, h.2, h.1⟩]
    simp

/-- Closed instance of `parse_phone_characterization`. -/
theorem parse_phone_characterization_instance :
    (Phone.init (List.replicate 10 '7')).isSome = true :=
  (parse_phone_characterization (List.replicate 10 '7')).1.mpr (by decide)

/-- Claim C5, counterexample: the `Record` constructor accepts the
whitespace-only name `" "` and returns an ordinary contact holding it —
no `InvalidName` failure exists anywhere in the source. -/
theorem record_init_accepts_blank_name :
    (∀ c ∈ ([' '] : PyStr), c = ' ') ∧
      Record.init [' '] = ⟨[' '], [], none⟩ := by
  decide

/-- Claim C5, amended: `Record` construction never fails; for every name
string — empty and whitespace-only included — it returns a contact holding
exactly that name, an empty phone list and no birthday. -/
theorem record_init_never_fails (name : PyStr) :
    (Record.init name).name = name ∧ (Record.init name).phones = [] ∧
      (Record.init name).birthday = none :=
  ⟨rfl, rfl, rfl⟩

/-- Claim C7: with the injected date 2025-02-25 (2025 is not a leap year)
and a contact whose stored birthday is 2024-02-29, the upcoming-birthdays
query propagates the `ValueError` raised by `replace(year=2025)` (modelled
by `none`) instead of resolving the projection to a real date. -/
theorem feb29_projection_raises :
    isLeap 2025 = false ∧
      get_upcoming_birthdays ⟨2025, 2, 25⟩
        [(['B'], ⟨['B'], [], some ⟨2024, 2, 29⟩⟩)] = none := by
  decide

/-- Claim C2, counterexample: with an empty phone list and the malformed new
number `"x"`, `edit_phone` returns `False` without raising — the validation
promised "before any mutation" is skipped whenever the old number is absent. -/
theorem edit_phone_skips_validation_when_old_absent :
    Phone.init ['x'] = none ∧
      Record.edit_phone ⟨['A'], [], none⟩ ['0'] ['x'] =
        some (⟨['A'], [], none⟩, false) := by
  decide

/-- Behaviour of the phone-editing loop on the raw list. -/
theorem editPhoneList_spec (ps : List PyStr) (oldp newp : PyStr) :
    (oldp ∉ ps → editPhoneList ps oldp newp = some (ps, false)) ∧
    (oldp ∈ ps → Phone.init newp = none → editPhoneList ps oldp newp = none) ∧
    (∀ np, oldp ∈ ps → Phone.init newp = some np →
      editPhoneList ps oldp newp = some (replaceFirst ps oldp np, true)) := by
  induction ps with
  | nil => simp [editPhoneList]
  | cons p ps ih =>
    by_cases hp : p = oldp
    · subst hp
      refine ⟨fun h => absurd (List.mem_cons_self p ps) h, fun _ hn => ?_,
        fun np _ hn => ?_⟩
      · simp [editPhoneList, hn]
      · simp [editPhoneList, replaceFirst, hn]
    · refine ⟨fun h => ?_, fun hm hn => ?_, fun np hm hn => ?_⟩
      · have h' : oldp ∉ ps := fun hm => h (List.mem_cons_of_mem _ hm)
        simp [editPhoneList, hp, ih.1 h']
      · have hm' : oldp ∈ ps := by
          rcases List.mem_cons.mp hm with h | h
          · exact absurd h.symm hp
          · exact h
        simp [editPhoneList, hp, ih.2.1 hm' hn]
      · have hm' : oldp ∈ ps := by
          rcases List.mem_cons.mp hm with h | h
          · exact absurd h.symm hp
          · exact h
        simp [editPhoneList, replaceFirst, hp, ih.2.2 np hm' hn]

/-- Claim C2, amended: `edit_phone` validates the new number only after the
old one has been located.  If no stored phone equals `oldp` it returns
`False` with the phone list untouched, even for a malformed `newp`; if some
stored phone equals `oldp`, a malformed `newp` raises `InvalidFormat` before
any mutation, and a valid `newp` overwrites the first matching slot in place
and returns `True`. -/
theorem edit_phone_amended (r : Record) (oldp newp : PyStr) :
    (oldp ∉ r.phones → r.edit_phone oldp newp = some (r, false)) ∧
    (oldp ∈ r.phones → Phone.init newp = none → r.edit_phone oldp newp = none) ∧
    (∀ np, oldp ∈ r.phones → Phone.init newp = some np →
      r.edit_phone oldp newp =
        some (⟨r.name, replaceFirst r.phones oldp np, r.birthday⟩, true)) := by
  obtain ⟨h1, h2, h3⟩ := editPhoneList_spec r.phones oldp newp
  refine ⟨fun h => ?_, fun hm hn => ?_, fun np hm hn => ?_⟩
  · rcases r with ⟨n, ps, b⟩
    simp only [Record.edit_phone] at h ⊢
    rw [h1 h]
  · simp only [Record.edit_phone]
    rw [h2 hm hn]
  · simp only [Record.edit_phone]
    rw [h3 np hm hn]

/-- Closed instance of `edit_phone_amended`: replacing a present number with
a valid one succeeds and overwrites the slot. -/
theorem edit_phone_amended_instance :
    Record.edit_phone ⟨['A'], [ones10], none⟩ ones10 twos10 =
      some (⟨['A'], replaceFirst [ones10] ones10 twos10, none⟩, true) :=
  (edit_phone_amended ⟨['A'], [ones10], none⟩ ones10 twos10).2.2 twos10
    (by decide) (by decide)

/-- Claim C4, counterexample: starting from the duplicate-free phone list
`["1111111111", "2222222222"]`, `edit_phone("1111111111", "2222222222")`
succeeds and leaves the list `["2222222222", "2222222222"]` — editing can
break uniqueness-by-value. -/
theorem edit_phone_can_duplicate :
    Record.edit_phone ⟨['A'], [ones10, twos10], none⟩ ones10 twos10 =
        some (⟨['A'], [twos10, twos10], none⟩, true) ∧
      ¬ ([twos10, twos10] : List PyStr).Nodup := by
  refine ⟨by decide, by decide⟩

/-- Every element of a `replaceFirst` result was present before or is the
replacement value. -/
theorem mem_replaceFirst (ps : List PyStr) (oldp np x : PyStr)
    (h : x ∈ replaceFirst ps oldp np) : x ∈ ps ∨ x = np := by
  induction ps with
  | nil => simp [replaceFirst] at h
  | cons p ps ih =>
    by_cases hp : p = oldp
    · rw [replaceFirst, if_pos hp] at h
      rcases List.mem_cons.mp h with h | h
      · exact Or.inr h
      · exact Or.inl (List.mem_cons_of_mem _ h)
    · rw [replaceFirst, if_neg hp] at h
      rcases List.mem_cons.mp h with h | h
      · exact Or.inl (h ▸ List.mem_cons_self p ps)
      · rcases ih h with h | h
        · exact Or.inl (List.mem_cons_of_mem _ h)
        · exact Or.inr h

/-- Lemma: `replaceFirst` keeps a duplicate-free list duplicate-free as long as the
replacement value is the replaced one or is not already present. -/
theorem replaceFirst_nodup (ps : List PyStr) (oldp np : PyStr)
    (h : ps.Nodup) (hc : np = oldp ∨ np ∉ ps) :
    (replaceFirst ps oldp np).Nodup := by
  induction ps with
  | nil => simp [replaceFirst]
  | cons p ps ih =>
    rcases List.nodup_cons.mp h with ⟨hpm, hnd⟩
    by_cases hp : p = oldp
    · rw [replaceFirst, if_pos hp]
      refine List.nodup_cons.mpr ⟨?_, hnd⟩
      rcases hc with hc | hc
      · exact fun hm => hpm ((hc.trans hp.symm) ▸ hm)
      · exact fun hm => hc (List.mem_cons_of_mem _ hm)
    · rw [replaceFirst, if_neg hp]
      refine List.nodup_cons.mpr ⟨?_, ?_⟩
      · intro hm
        rcases mem_replaceFirst ps oldp np p hm with hm | hm
        · exact hpm hm
        · rcases hc with hc | hc
          · exact hp (hm.trans hc)
          · exact hc (hm ▸ List.mem_cons_self p ps)
      · refine ih hnd ?_
        rcases hc with hc | hc
        · exact Or.inl hc
        · exact Or.inr fun hm => hc (List.mem_cons_of_mem _ hm)

/-- Claim C4, amended: on a record whose phone list is duplicate-free,
`add_phone` preserves uniqueness-by-value (re-adding a present valid phone
is a silent no-op leaving exactly one occurrence), `remove_phone` preserves
it, and `edit_phone` preserves it provided the new value is the old one or
is not already stored elsewhere — without that proviso `edit_phone` can
create duplicates. -/
theorem phone_ops_preserve_uniqueness (r : Record) (h : r.phones.Nodup) :
    (∀ p r2, r.add_phone p = some r2 → r2.phones.Nodup) ∧
    (∀ p, Phone.init p = some p → p ∈ r.phones → r.add_phone p = some r) ∧
    (∀ p, ((r.remove_phone p).phones).Nodup) ∧
    (∀ oldp newp r2 bl, r.edit_phone oldp newp = some (r2, bl) →
      (newp = oldp ∨ newp ∉ r.phones) → r2.phones.Nodup) := by
  refine ⟨fun p r2 h2 => ?_, fun p hv hm => ?_, fun p => ?_,
    fun oldp newp r2 bl h2 hc => ?_⟩
  · unfold Record.add_phone at h2
    cases hv : Phone.init p with
    | none => rw [hv] at h2; exact absurd h2 (by simp)
    | some q =>
      simp only [hv] at h2
      by_cases hq : r.phones.any (fun x => x = q)
      · rw [if_pos hq] at h2
        cases h2
        exact h
      · rw [if_neg hq] at h2
        cases h2
        have hqm : q ∉ r.phones := by
          intro hm
          exact hq (List.any_eq_true.mpr ⟨q, hm, by simp⟩)
        refine List.nodup_append.mpr ⟨h, List.nodup_singleton q, ?_⟩
        intro a ha hq'
        rw [List.mem_singleton] at hq'
        exact hqm (hq' ▸ ha)
  · unfold Record.add_phone
    simp only [hv]
    rw [if_pos (List.any_eq_true.mpr ⟨p, hm, by simp⟩)]
  · exact h.erase p
  · unfold Record.edit_phone at h2
    cases he : editPhoneList r.phones oldp newp with
    | none => rw [he] at h2; exact absurd h2 (by simp)
    | some pr =>
      rw [he] at h2
      cases h2
      by_cases hm : oldp ∈ r.phones
      · cases hv : Phone.init newp with
        | none =>
          rw [(editPhoneList_spec r.phones oldp newp).2.1 hm hv] at he
          exact absurd he (by simp)
        | some np =>
          have hnp : np = newp := Phone.init_eq newp np hv
          rw [(editPhoneList_spec r.phones oldp newp).2.2 np hm hv] at he
          cases he
          subst hnp
          exact replaceFirst_nodup r.phones oldp np h hc
      · rw [(editPhoneList_spec r.phones oldp newp).1 hm] at he
        cases he
        exact h

/-- Closed instance of `phone_ops_preserve_uniqueness`. -/
theorem phone_ops_preserve_uniqueness_instance :
    ((Record.remove_phone ⟨['A'], [ones10, twos10], none⟩ ones10).phones).Nodup :=
  (phone_ops_preserve_uniqueness ⟨['A'], [ones10, twos10], none⟩
    (by decide)).2.2.1 ones10

/-- Claim C6, counterexample: `strptime("%d.%m.%Y")` accepts the unpadded
string `"1.1.2024"`, so the parser does not require the strict
two-digit-day, two-digit-month pattern the claim states. -/
theorem birthday_parse_accepts_unpadded :
    pyStrptimeDMY ['1', '.', '1', '.', '2', '0', '2', '4'] = some ⟨2024, 1, 1⟩ ∧
      specStrictDMY ['1', '.', '1', '.', '2', '0', '2', '4'] = false := by
  decide

/-- Characters between `'1'` and `'9'` are Python digits. -/
theorem pyIsDigit_of_one_to_nine (c : Char) (h1 : '1' ≤ c) (h2 : c ≤ '9') :
    pyIsDigit c = true := by
  have h0 : '0' ≤ c := le_trans (by decide) h1
  simp [pyIsDigit, isAsciiDigit, h0, h2]

/-- A token accepted by the day directive has one or two digit characters,
and its digit value is the parsed day. -/
theorem dayTok_shape (t : PyStr) (v : Nat) (h : dayTok t = some v) :
    (t.length = 1 ∨ t.length = 2) ∧ t.all pyIsDigit = true ∧
      natOfDigits t = v := by
  rcases t with _ | ⟨c1, _ | ⟨c2, _ | ⟨c3, t⟩⟩⟩
  · simp [dayTok] at h
  · simp only [dayTok] at h
    split at h
    · rename_i hc
      injection h with h
      refine ⟨Or.inl rfl, ?_, ?_⟩
      · simp [pyIsDigit_of_one_to_nine c1 hc.1 hc.2]
      · rw [← h]
        simp [natOfDigits]
    · exact absurd h (by simp)
  · simp only [dayTok] at h
    split at h
    · rename_i hc
      obtain ⟨hc1, hc2⟩ := hc
      subst hc1
      injection h with h
      rcases hc2 with h2 | h2 <;> subst h2 <;>
        exact ⟨Or.inr rfl, by decide, by rw [← h]; decide⟩
    · split at h
      · rename_i hc
        obtain ⟨hc1, hc2⟩ := hc
        injection h with h
        refine ⟨Or.inr rfl, ?_, ?_⟩
        · rcases hc1 with h1 | h1 <;> subst h1
          · have e : pyIsDigit '1' = true := by decide
            simp [e, hc2]
          · have e : pyIsDigit '2' = true := by decide
            simp [e, hc2]
        · rw [← h]
          simp [natOfDigits]
      · split at h
        · rename_i hc
          obtain ⟨hc1, hr1, hr2⟩ := hc
          subst hc1
          injection h with h
          refine ⟨Or.inr rfl, ?_, ?_⟩
          · have e : pyIsDigit '0' = true := by decide
            simp [e, pyIsDigit_of_one_to_nine c2 hr1 hr2]
          · rw [← h]
            have e : pyDigitVal '0' = 0 := by decide
            simp [natOfDigits, e]
        · exact absurd h (by simp)
  · simp [dayTok] at h

/-- A token accepted by the month directive has one or two digit characters,
and its digit value is the parsed month. -/
theorem monthTok_shape (t : PyStr) (v : Nat) (h : monthTok t = some v) :
    (t.length = 1 ∨ t.length = 2) ∧ t.all pyIsDigit = true ∧
      natOfDigits t = v := by
  rcases t with _ | ⟨c1, _ | ⟨c2, _ | ⟨c3, t⟩⟩⟩
  · simp [monthTok] at h
  · simp only [monthTok] at h
    split at h
    · rename_i hc
      injection h with h
      refine ⟨Or.inl rfl, ?_, ?_⟩
      · simp [pyIsDigit_of_one_to_nine c1 hc.1 hc.2]
      · rw [← h]
        simp [natOfDigits]
    · exact absurd h (by simp)
  · simp only [monthTok] at h
    split at h
    · rename_i hc
      obtain ⟨hc1, hc2⟩ := hc
      subst hc1
      injection h with h
      rcases hc2 with h2 | h2 | h2 <;> subst h2 <;>
        exact ⟨Or.inr rfl, by decide, by rw [← h]; decide⟩
    · split at h
      · rename_i hc
        obtain ⟨hc1, hr1, hr2⟩ := hc
        subst hc1
        injection h with h
        refine ⟨Or.inr rfl, ?_, ?_⟩
        · have e : pyIsDigit '0' = true := by decide
          simp [e, pyIsDigit_of_one_to_nine c2 hr1 hr2]
        · rw [← h]
          have e : pyDigitVal '0' = 0 := by decide
          simp [natOfDigits, e]
      · exact absurd h (by simp)
  · simp [monthTok] at h

/-- A token accepted by the year directive is exactly four digit
characters, and its digit value is the parsed year. -/
theorem yearTok_shape (t : PyStr) (v : Nat) (h : yearTok t = some v) :
    t.length = 4 ∧ t.all pyIsDigit = true ∧ natOfDigits t = v := by
  rcases t with _ | ⟨c1, _ | ⟨c2, _ | ⟨c3, _ | ⟨c4, _ | ⟨c5, t⟩⟩⟩⟩⟩
  · simp [yearTok] at h
  · simp [yearTok] at h
  · simp [yearTok] at h
  · simp [yearTok] at h
  · simp only [yearTok] at h
    split at h
    · rename_i hc
      obtain ⟨e1, e2, e3, e4⟩ := hc
      injection h with h
      refine ⟨rfl, ?_, ?_⟩
      · simp [e1, e2, e3, e4]
      · rw [← h]
        simp [natOfDigits]
        ring
    · exact absurd h (by simp)
  · simp [yearTok] at h

/-- Inversion of the parser: an accepted string splits into exactly three
tokens accepted by the day, month and year directives, and the resulting
date is valid. -/
theorem pyStrptimeDMY_inv (s : PyStr) (d : Date)
    (h : pyStrptimeDMY s = some d) :
    ∃ dt mt yt, splitOnDot s = [dt, mt, yt] ∧ dayTok dt = some d.day ∧
      monthTok mt = some d.month ∧ yearTok yt = some d.year ∧
      validDate d = true := by
  unfold pyStrptimeDMY at h
  split at h
  · rename_i dt mt yt hs
    split at h
    · rename_i dv mv yv hd hm hy
      split at h
      · rename_i hv
        cases h
        exact ⟨dt, mt, yt, hs, hd, hm, hy, hv⟩
      · exact absurd h (by simp)
    · exact absurd h (by simp)
  · exact absurd h (by simp)

/-- Claim C6, amended: the parser accepts day and month written with one
*or* two digits (leading zeros optional, as Python's `strptime` does) and a
four-digit year, separated by periods, and only combinations forming a real
calendar date (leap years respected): `"29.02.2024"` succeeds,
`"31.04.2023"` fails (April has 30 days), and `"1.1.2024"` also succeeds;
and *every* accepted string has the one-or-two-digit-day,
one-or-two-digit-month, four-digit-year dot-separated shape whose digit
values form a valid calendar date — so the parser fails on anything else. -/
theorem birthday_parse_amended :
    Birthday.init ['2', '9', '.', '0', '2', '.', '2', '0', '2', '4'] =
        some ⟨2024, 2, 29⟩ ∧
      Birthday.init ['3', '1', '.', '0', '4', '.', '2', '0', '2', '3'] = none ∧
      Birthday.init ['1', '.', '1', '.', '2', '0', '2', '4'] = some ⟨2024, 1, 1⟩ ∧
      ∀ s d, Birthday.init s = some d →
        specLaxDMY s = true ∧ validDate d = true := by
  refine ⟨by decide, by decide, by decide, fun s d h => ?_⟩
  obtain ⟨dt, mt, yt, hs, hd, hm, hy, hv⟩ := pyStrptimeDMY_inv s d h
  obtain ⟨hdl, hdd, hdv⟩ := dayTok_shape dt d.day hd
  obtain ⟨hml, hmd, hmv⟩ := monthTok_shape mt d.month hm
  obtain ⟨hyl, hyd, hyv⟩ := yearTok_shape yt d.year hy
  refine ⟨?_, hv⟩
  have hvd : validDate ⟨natOfDigits yt, natOfDigits mt, natOfDigits dt⟩ =
      true := by
    rw [hdv, hmv, hyv]
    exact hv
  rcases hdl with h1 | h1 <;> rcases hml with h2 | h2 <;>
    simp [specLaxDMY, hs, h1, h2, hyl, hdd, hmd, hyd, hvd]

/-- Closed instance of `birthday_parse_amended`. -/
theorem birthday_parse_amended_instance :
    specLaxDMY ['2', '9', '.', '0', '2', '.', '2', '0', '2', '4'] = true ∧
      validDate ⟨2024, 2, 29⟩ = true :=
  birthday_parse_amended.2.2.2 ['2', '9', '.', '0', '2', '.', '2', '0', '2', '4']
    ⟨2024, 2, 29⟩ (by decide)

/-- Looking up the key just written by `dictSet` yields the written record. -/
theorem dictSet_find_self (book : AddressBook) (n : PyStr) (rec : Record) :
    AddressBook.find (dictSet book n rec) n = some rec := by
  induction book with
  | nil => simp [dictSet, AddressBook.find]
  | cons kv rest ih =>
    by_cases hk : kv.1 = n
    · simp [dictSet, hk, AddressBook.find]
    · simp [dictSet, hk, AddressBook.find, ih]

/-- Lemma: `dictSet` leaves every other key's binding unchanged. -/
theorem dictSet_find_other (book : AddressBook) (n : PyStr) (rec : Record)
    (m : PyStr) (h : m ≠ n) :
    AddressBook.find (dictSet book n rec) m = AddressBook.find book m := by
  have hnm : ¬ n = m := fun e => h e.symm
  induction book with
  | nil =>
    simp only [dictSet, AddressBook.find]
    rw [if_neg hnm]
  | cons kv rest ih =>
    by_cases hk : kv.1 = n
    · simp only [dictSet, if_pos hk, AddressBook.find]
      rw [if_neg hnm, if_neg (fun e : kv.1 = m => h (e ▸ hk))]
    · simp only [dictSet, if_neg hk, AddressBook.find]
      by_cases hm : kv.1 = m
      · rw [if_pos hm, if_pos hm]
      · rw [if_neg hm, if_neg hm, ih]

/-- Every key present after a `dictSet` was present before or is the key
just written. -/
theorem mem_keys_dictSet (book : AddressBook) (n : PyStr) (rec : Record)
    (x : PyStr) (h : x ∈ (dictSet book n rec).map Prod.fst) :
    x ∈ book.map Prod.fst ∨ x = n := by
  induction book with
  | nil =>
    simp only [dictSet, List.map_cons, List.map_nil] at h
    exact Or.inr (by simpa using h)
  | cons kv rest ih =>
    by_cases hk : kv.1 = n
    · simp only [dictSet, if_pos hk, List.map_cons] at h
      rcases List.mem_cons.mp h with h | h
      · exact Or.inr h
      · exact Or.inl (List.mem_cons_of_mem _ h)
    · simp only [dictSet, if_neg hk, List.map_cons] at h
      rcases List.mem_cons.mp h with h | h
      · exact Or.inl (h ▸ List.mem_cons_self _ _)
      · rcases ih h with h | h
        · exact Or.inl (List.mem_cons_of_mem _ h)
        · exact Or.inr h

/-- Lemma: `dictSet` preserves key uniqueness. -/
theorem dictSet_keys_nodup (book : AddressBook) (n : PyStr) (rec : Record)
    (h : (book.map Prod.fst).Nodup) :
    ((dictSet book n rec).map Prod.fst).Nodup := by
  induction book with
  | nil => simp [dictSet]
  | cons kv rest ih =>
    rw [List.map_cons, List.nodup_cons] at h
    obtain ⟨hk1, hrest⟩ := h
    by_cases hk : kv.1 = n
    · simp only [dictSet, if_pos hk, List.map_cons]
      exact List.nodup_cons.mpr ⟨hk ▸ hk1, hrest⟩
    · simp only [dictSet, if_neg hk, List.map_cons]
      refine List.nodup_cons.mpr ⟨fun hm => ?_, ih hrest⟩
      rcases mem_keys_dictSet rest n rec kv.1 hm with hm | hm
      · exact hk1 hm
      · exact hk hm

/-- The keys left by `eraseKey` form a sublist of the original keys. -/
theorem eraseKey_keys_sublist (book : AddressBook) (n : PyStr) :
    List.Sublist ((eraseKey book n).map Prod.fst) (book.map Prod.fst) := by
  induction book with
  | nil => simp [eraseKey]
  | cons kv rest ih =>
    by_cases hk : kv.1 = n
    · simp only [eraseKey, if_pos hk, List.map_cons]
      exact List.Sublist.cons kv.1 (List.Sublist.refl _)
    · simp only [eraseKey, if_neg hk, List.map_cons]
      exact List.Sublist.cons₂ kv.1 ih

/-- Claim C8: `add_record` is total (it returns a book, never an error);
afterwards the written name maps to exactly the inserted record, every other
name's binding is untouched (the prior record under that name is replaced
whole, not merged), and both `add_record` and `delete` preserve the
at-most-one-record-per-name invariant. -/
theorem add_record_spec (book : AddressBook) (rec : Record) :
    AddressBook.find (book.add_record rec) rec.name = some rec ∧
      (∀ n, n ≠ rec.name →
        AddressBook.find (book.add_record rec) n = AddressBook.find book n) ∧
      ((book.map Prod.fst).Nodup → ((book.add_record rec).map Prod.fst).Nodup) ∧
      (∀ n, (book.map Prod.fst).Nodup →
        (((book.delete n).1).map Prod.fst).Nodup) := by
  refine ⟨dictSet_find_self book rec.name rec,
    fun n hn => dictSet_find_other book rec.name rec n hn,
    fun h => dictSet_keys_nodup book rec.name rec h, fun n h => ?_⟩
  unfold AddressBook.delete
  by_cases ha : book.any (fun kv => kv.1 = n)
  · rw [if_pos ha]
    exact List.Nodup.sublist (eraseKey_keys_sublist book n) h
  · rw [if_neg ha]
    exact h

/-- Closed instance of `add_record_spec`. -/
theorem add_record_spec_instance :
    ((AddressBook.add_record [(['B'], Record.init ['B'])]
        (Record.init ['A'])).map Prod.fst).Nodup :=
  (add_record_spec [(['B'], Record.init ['B'])] (Record.init ['A'])).2.2.1
    (by decide)

/-- An entry emitted by the per-record step carries that record's name. -/
theorem upcomingFor_name (today : Date) (rec : Record) (e : UpEntry)
    (h : upcomingFor today rec = some (some e)) : e.name = rec.name := by
  unfold upcomingFor at h
  split at h
  · exact absurd h (by simp)
  · split at h
    · exact absurd h (by simp)
    · split at h
      · have he := Option.some.inj (Option.some.inj h)
        rw [← he]
      · exact absurd h (by simp)

/-- Claim C10: whenever the upcoming-birthdays query returns normally, the
names of the emitted entries form a sublist of the book's record names in
dictionary order — included contacts appear in record-insertion order, with
no sorting by greeting date or by name. -/
theorem upcoming_preserves_order (today : Date) (book : AddressBook)
    (out : List UpEntry)
    (hout : get_upcoming_birthdays today book = some out) :
    List.Sublist (out.map UpEntry.name) (book.map (fun kv => (kv.2).name)) := by
  induction book generalizing out with
  | nil =>
    simp only [get_upcoming_birthdays] at hout
    injection hout with hout
    subst hout
    simp
  | cons kv rest ih =>
    simp only [get_upcoming_birthdays] at hout
    cases hu : upcomingFor today kv.2 with
    | none =>
      simp only [hu] at hout
      exact absurd hout (by simp)
    | some oe =>
      simp only [hu] at hout
      cases oe with
      | none =>
        exact List.Sublist.cons _ (ih out hout)
      | some e =>
        cases hr : get_upcoming_birthdays today rest with
        | none =>
          simp only [hr] at hout
          exact absurd hout (by simp)
        | some l =>
          simp only [hr] at hout
          injection hout with hout
          subst hout
          have hn := upcomingFor_name today kv.2 e hu
          simpa [hn] using List.Sublist.cons₂ ((kv.2).name) (ih l hr)

/-- Closed instance of `upcoming_preserves_order`: with today 2024-06-10, a
book holding A (birthday 13.06, within the window) then B (birthday 20.06,
outside it) emits exactly A, in book order. -/
theorem upcoming_preserves_order_instance :
    List.Sublist
      (([⟨['A'], ['2', '0', '2', '4', '.', '0', '6', '.', '1', '3']⟩] :
        List UpEntry).map UpEntry.name)
      (([(['A'], ⟨['A'], [], some ⟨1990, 6, 13⟩⟩),
        (['B'], ⟨['B'], [], some ⟨1990, 6, 20⟩⟩)] : AddressBook).map
        (fun kv => (kv.2).name)) :=
  upcoming_preserves_order ⟨2024, 6, 10⟩ _ _ (by decide)

/-- Characterisation of an emitted entry: it must come from a record whose
birthday projects into the 7-day window, and it carries that record's name
and shifted, formatted greeting date. -/
theorem upcomingFor_inv (today : Date) (rec : Record) (e : UpEntry)
    (h : upcomingFor today rec = some (some e)) :
    ∃ b bty, rec.birthday = some b ∧ projectBirthday today b = some bty ∧
      (0 ≤ daysAhead today bty ∧ daysAhead today bty ≤ 6) ∧
      e = ⟨rec.name, formatYMD (shiftWeekend bty)⟩ := by
  unfold upcomingFor at h
  split at h
  · exact absurd h (by simp)
  · next b hb =>
    split at h
    · exact absurd h (by simp)
    · next bty hp =>
      split at h
      · next hw =>
        exact ⟨b, bty, hb, hp, hw, (Option.some.inj (Option.some.inj h)).symm⟩
      · exact absurd h (by simp)

/-- A record whose projected birthday lands in the window is emitted. -/
theorem upcomingFor_emit (today : Date) (rec : Record) (b bty : Date)
    (hb : rec.birthday = some b) (hp : projectBirthday today b = some bty)
    (hw : 0 ≤ daysAhead today bty ∧ daysAhead today bty ≤ 6) :
    upcomingFor today rec =
      some (some ⟨rec.name, formatYMD (shiftWeekend bty)⟩) := by
  unfold upcomingFor
  simp only [hb, hp]
  rw [if_pos hw]

/-- Every entry of a normal result is emitted by some record of the book. -/
theorem out_mem_src (today : Date) (book : AddressBook) (out : List UpEntry)
    (hout : get_upcoming_birthdays today book = some out) :
    ∀ e ∈ out, ∃ kv ∈ book, upcomingFor today kv.2 = some (some e) := by
  induction book generalizing out with
  | nil =>
    simp only [get_upcoming_birthdays] at hout
    injection hout with hout
    subst hout
    intro e he
    exact absurd he (by simp)
  | cons kv rest ih =>
    simp only [get_upcoming_birthdays] at hout
    cases hu : upcomingFor today kv.2 with
    | none =>
      simp only [hu] at hout
      exact absurd hout (by simp)
    | some oe =>
      simp only [hu] at hout
      cases oe with
      | none =>
        intro e he
        obtain ⟨kv', hkv', he'⟩ := ih out hout e he
        exact ⟨kv', List.mem_cons_of_mem _ hkv', he'⟩
      | some e0 =>
        cases hr : get_upcoming_birthdays today rest with
        | none =>
          simp only [hr] at hout
          exact absurd hout (by simp)
        | some l =>
          simp only [hr] at hout
          injection hout with hout
          subst hout
          intro e he
          rcases List.mem_cons.mp he with he | he
          · exact ⟨kv, List.mem_cons_self _ _, he ▸ hu⟩
          · obtain ⟨kv', hkv', he'⟩ := ih l hr e he
            exact ⟨kv', List.mem_cons_of_mem _ hkv', he'⟩

/-- Conversely, an entry emitted by a record of the book occurs in a normal
result. -/
theorem src_mem_out (today : Date) (book : AddressBook) (out : List UpEntry)
    (kv : PyStr × Record) (e : UpEntry)
    (hout : get_upcoming_birthdays today book = some out)
    (hmem : kv ∈ book) (he : upcomingFor today kv.2 = some (some e)) :
    e ∈ out := by
  induction book generalizing out with
  | nil => exact absurd hmem (by simp)
  | cons kv0 rest ih =>
    simp only [get_upcoming_birthdays] at hout
    cases hu : upcomingFor today kv0.2 with
    | none =>
      simp only [hu] at hout
      exact absurd hout (by simp)
    | some oe =>
      simp only [hu] at hout
      rcases List.mem_cons.mp hmem with hm | hm
      · subst hm
        rw [he] at hu
        injection hu with hu
        cases oe with
        | none => exact absurd hu.symm (by simp)
        | some e0 =>
          injection hu with hu
          subst hu
          cases hr : get_upcoming_birthdays today rest with
          | none =>
            simp only [hr] at hout
            exact absurd hout (by simp)
          | some l =>
            simp only [hr] at hout
            injection hout with hout
            subst hout
            exact List.mem_cons_self _ _
      · cases oe with
        | none => exact ih out hout hm
        | some e0 =>
          cases hr : get_upcoming_birthdays today rest with
          | none =>
            simp only [hr] at hout
            exact absurd hout (by simp)
          | some l =>
            simp only [hr] at hout
            injection hout with hout
            subst hout
            exact List.mem_cons_of_mem _ (ih l hr hm)

/-- In a book with duplicate-free keys, a key determines its record. -/
theorem nodup_keys_val_eq (book : AddressBook) (n : PyStr) (r1 r2 : Record)
    (hkeys : (book.map Prod.fst).Nodup)
    (h1 : (n, r1) ∈ book) (h2 : (n, r2) ∈ book) : r1 = r2 := by
  induction book with
  | nil => exact absurd h1 (by simp)
  | cons kv rest ih =>
    rw [List.map_cons, List.nodup_cons] at hkeys
    obtain ⟨hk1, hrest⟩ := hkeys
    rcases List.mem_cons.mp h1 with hm1 | hm1 <;>
      rcases List.mem_cons.mp h2 with hm2 | hm2
    · rw [← hm2] at hm1
      exact congrArg Prod.snd hm1
    · exfalso
      apply hk1
      rw [← hm1]
      exact List.mem_map.mpr ⟨(n, r2), hm2, rfl⟩
    · exfalso
      apply hk1
      rw [← hm2]
      exact List.mem_map.mpr ⟨(n, r1), hm1, rfl⟩
    · exact ih hrest hm1 hm2

/-- Claim C1: fix an injected `today` and a well-formed book (unique names,
each record stored under its own name).  For a contact whose stored birthday
`b` has a defined projection `thisYear` (the month/day of `b` projected onto
`today`'s year, re-projected onto the next year when strictly earlier than
`today`), and a normally returned result: the contact appears in the result
iff the whole-day difference `thisYear - today` lies in `[0, 6]`, and any
entry bearing its name carries the greeting date `thisYear` shifted by 2
days when it falls on Saturday and by 1 day when on Sunday, formatted as
`year.month.day`. -/
theorem upcoming_birthdays_window_shift
    (today : Date) (book : AddressBook) (nm : PyStr) (rec : Record)
    (hmem : (nm, rec) ∈ book)
    (hkeys : (book.map Prod.fst).Nodup)
    (hnames : ∀ kv ∈ book, (kv.2).name = kv.1)
    (b : Date) (hb : rec.birthday = some b)
    (thisYear : Date) (hproj : projectBirthday today b = some thisYear)
    (out : List UpEntry)
    (hout : get_upcoming_birthdays today book = some out) :
    ((∃ e ∈ out, e.name = nm) ↔
        (0 ≤ daysAhead today thisYear ∧ daysAhead today thisYear ≤ 6)) ∧
      ∀ e ∈ out, e.name = nm →
        e.congratulation_date = formatYMD (shiftWeekend thisYear) := by
  have hrn : rec.name = nm := hnames (nm, rec) hmem
  have key : ∀ e ∈ out, e.name = nm →
      e = ⟨rec.name, formatYMD (shiftWeekend thisYear)⟩ ∧
        (0 ≤ daysAhead today thisYear ∧ daysAhead today thisYear ≤ 6) := by
    intro e he hen
    obtain ⟨kv, hkv, hu⟩ := out_mem_src today book out hout e he
    obtain ⟨b', bty', hb', hp', hw', he'⟩ := upcomingFor_inv today kv.2 e hu
    have hkn : (kv.2).name = kv.1 := hnames kv hkv
    have hk1 : kv.1 = nm := by
      rw [← hkn, ← hen, he']
    have hkv' : (nm, kv.2) ∈ book := by
      have : kv = (nm, kv.2) := by
        rw [← hk1]
      rw [← this]
      exact hkv
    have hrec : kv.2 = rec := nodup_keys_val_eq book nm kv.2 rec hkeys hkv' hmem
    rw [hrec, hb] at hb'
    injection hb' with hb'
    subst hb'
    rw [hproj] at hp'
    injection hp' with hp'
    subst hp'
    rw [hrec] at he'
    exact ⟨he', hw'⟩
  constructor
  · constructor
    · rintro ⟨e, he, hen⟩
      exact (key e he hen).2
    · intro hw
      refine ⟨⟨rec.name, formatYMD (shiftWeekend thisYear)⟩, ?_, hrn⟩
      exact src_mem_out today book out (nm, rec) _ hout hmem
        (upcomingFor_emit today rec b thisYear hb hproj hw)
  · intro e he hen
    rw [(key e he hen).1]

/-- Closed instance of `upcoming_birthdays_window_shift`: today 2024-06-10,
one contact with birthday 15.06.1990; 2024-06-15 is a Saturday 5 days ahead,
so the contact is listed with greeting date `"2024.06.17"` (the Monday). -/
theorem upcoming_birthdays_window_shift_instance :
    ((∃ e ∈ ([⟨['A'], ['2', '0', '2', '4', '.', '0', '6', '.', '1', '7']⟩] :
          List UpEntry), e.name = ['A']) ↔
        (0 ≤ daysAhead ⟨2024, 6, 10⟩ ⟨2024, 6, 15⟩ ∧
          daysAhead ⟨2024, 6, 10⟩ ⟨2024, 6, 15⟩ ≤ 6)) ∧
      ∀ e ∈ ([⟨['A'], ['2', '0', '2', '4', '.', '0', '6', '.', '1', '7']⟩] :
          List UpEntry), e.name = ['A'] →
        e.congratulation_date = formatYMD (shiftWeekend ⟨2024, 6, 15⟩) :=
  upcoming_birthdays_window_shift ⟨2024, 6, 10⟩
    [(['A'], ⟨['A'], [], some ⟨1990, 6, 15⟩⟩)] ['A']
    ⟨['A'], [], some ⟨1990, 6, 15⟩⟩ (by decide) (by decide) (by decide)
    ⟨1990, 6, 15⟩ rfl ⟨2024, 6, 15⟩ (by decide) _ (by decide)

/-- The value of a digit character. -/
theorem pyDigitVal_digChar (k : Nat) (h : k ≤ 9) :
    pyDigitVal (digChar k) = k := by
  interval_cases k <;> decide

/-- Digit characters are digits. -/
theorem pyIsDigit_digChar (k : Nat) : pyIsDigit (digChar k) = true := by
  unfold digChar
  split <;> decide

/-- Digit characters are not the separator. -/
theorem digChar_ne_dot (k : Nat) : digChar k ≠ '.' := by
  unfold digChar
  split <;> decide

theorem dot_not_mem_pad2 (n : Nat) : '.' ∉ pad2 n := by
  intro h
  rcases List.mem_cons.mp h with h | h
  · exact digChar_ne_dot _ h.symm
  · rcases List.mem_cons.mp h with h | h
    · exact digChar_ne_dot _ h.symm
    · exact absurd h (by simp)

theorem dot_not_mem_pad4 (n : Nat) : '.' ∉ pad4 n := by
  intro h
  rcases List.mem_cons.mp h with h | h
  · exact digChar_ne_dot _ h.symm
  · rcases List.mem_cons.mp h with h | h
    · exact digChar_ne_dot _ h.symm
    · rcases List.mem_cons.mp h with h | h
      · exact digChar_ne_dot _ h.symm
      · rcases List.mem_cons.mp h with h | h
        · exact digChar_ne_dot _ h.symm
        · exact absurd h (by simp)

/-- Splitting a dot-free prefix followed by a separator. -/
theorem splitOnDot_append (xs rest : PyStr) (h : '.' ∉ xs) :
    splitOnDot (xs ++ '.' :: rest) = xs :: splitOnDot rest := by
  induction xs with
  | nil => simp [splitOnDot]
  | cons c cs ih =>
    have hc : ¬ c = '.' := fun e => h (by rw [e]; exact List.mem_cons_self _ _)
    have h' : '.' ∉ cs := fun hm => h (List.mem_cons_of_mem _ hm)
    simp only [List.cons_append, splitOnDot, if_neg hc, List.append_eq, ih h']

/-- A dot-free string is a single token. -/
theorem splitOnDot_no_dot (xs : PyStr) (h : '.' ∉ xs) :
    splitOnDot xs = [xs] := by
  induction xs with
  | nil => simp [splitOnDot]
  | cons c cs ih =>
    have hc : ¬ c = '.' := fun e => h (by rw [e]; exact List.mem_cons_self _ _)
    have h' : '.' ∉ cs := fun hm => h (List.mem_cons_of_mem _ hm)
    simp only [splitOnDot, if_neg hc, ih h']

theorem daysInMonth_le (y m : Nat) : daysInMonth y m ≤ 31 := by
  unfold daysInMonth
  split <;> try decide
  split <;> decide

theorem validDate_bounds (d : Date) (h : validDate d = true) :
    1 ≤ d.year ∧ d.year ≤ 9999 ∧ 1 ≤ d.month ∧ d.month ≤ 12 ∧
      1 ≤ d.day ∧ d.day ≤ 31 := by
  unfold validDate at h
  simp only [Bool.and_eq_true, decide_eq_true_eq] at h
  obtain ⟨⟨⟨⟨⟨h1, h2⟩, h3⟩, h4⟩, h5⟩, h6⟩ := h
  exact ⟨h1, h2, h3, h4, h5, le_trans h6 (daysInMonth_le d.year d.month)⟩

/-- The zero-padded rendering of a day in 1–31 parses back to that day. -/
theorem dayTok_pad2 (n : Nat) (h1 : 1 ≤ n) (h2 : n ≤ 31) :
    dayTok (pad2 n) = some n := by
  interval_cases n <;> decide

/-- The zero-padded rendering of a month in 1–12 parses back to that month. -/
theorem monthTok_pad2 (n : Nat) (h1 : 1 ≤ n) (h2 : n ≤ 12) :
    monthTok (pad2 n) = some n := by
  interval_cases n <;> decide

/-- The zero-padded 4-digit rendering of a year below 10000 parses back. -/
theorem yearTok_pad4 (y : Nat) (h : y ≤ 9999) : yearTok (pad4 y) = some y := by
  have e1 := pyDigitVal_digChar (y / 1000) (by omega)
  have e2 := pyDigitVal_digChar (y / 100 % 10) (by omega)
  have e3 := pyDigitVal_digChar (y / 10 % 10) (by omega)
  have e4 := pyDigitVal_digChar (y % 10) (by omega)
  simp only [yearTok, pad4, pyIsDigit_digChar, e1, e2, e3, e4, and_self,
    if_true]
  congr 1
  omega

/-- A date accepted by `datetime.date` survives the `%d.%m.%Y` format /
parse round trip unchanged. -/
theorem strptime_format_roundtrip (d : Date) (h : validDate d = true) :
    pyStrptimeDMY (formatDMY d) = some d := by
  obtain ⟨hy1, hy2, hm1, hm2, hd1, hd2⟩ := validDate_bounds d h
  have hsplit : splitOnDot (formatDMY d) =
      [pad2 d.day, pad2 d.month, pad4 d.year] := by
    unfold formatDMY
    rw [splitOnDot_append _ _ (dot_not_mem_pad2 d.day),
      splitOnDot_append _ _ (dot_not_mem_pad2 d.month),
      splitOnDot_no_dot _ (dot_not_mem_pad4 d.year)]
  have h' : validDate ⟨d.year, d.month, d.day⟩ = true := h
  unfold pyStrptimeDMY
  rw [hsplit]
  simp only [dayTok_pad2 d.day hd1 hd2, monthTok_pad2 d.month hm1 hm2,
    yearTok_pad4 d.year hy2]
  rw [if_pos h']

theorem formatDMY_ne_nil (d : Date) : formatDMY d ≠ [] := by
  simp [formatDMY, pad2]

/-- Re-adding a list of valid, globally duplicate-free phones appends them
unchanged. -/
theorem loadPhones_spec : ∀ (ps : List PyStr) (r : Record),
    (∀ p ∈ ps, Phone.init p = some p) → (r.phones ++ ps).Nodup →
    loadPhones r ps = ⟨r.name, r.phones ++ ps, r.birthday⟩ := by
  intro ps
  induction ps with
  | nil =>
    intro r _ _
    rcases r with ⟨n, phs, bd⟩
    simp [loadPhones]
  | cons p ps ih =>
    intro r hv hn
    have hp : Phone.init p = some p := hv p (List.mem_cons_self _ _)
    have hpm : p ∉ r.phones := by
      rw [List.nodup_append] at hn
      intro hm
      exact hn.2.2 hm (List.mem_cons_self _ _)
    have hstep : r.add_phone p = some ⟨r.name, r.phones ++ [p], r.birthday⟩ := by
      unfold Record.add_phone
      simp only [hp]
      have hany : ¬ (r.phones.any fun q => q = p) = true := by
        intro hany
        obtain ⟨x, hx, he⟩ := List.any_eq_true.mp hany
        exact hpm ((by simpa using he : x = p) ▸ hx)
      rw [if_neg hany]
    have hfold : loadPhones r (p :: ps) =
        loadPhones ⟨r.name, r.phones ++ [p], r.birthday⟩ ps := by
      unfold loadPhones
      rw [List.foldl_cons]
      congr 1
      simp only [hstep]
    rw [hfold, ih ⟨r.name, r.phones ++ [p], r.birthday⟩
      (fun q hq => hv q (List.mem_cons_of_mem _ hq))
      (by simpa [List.append_assoc] using hn)]
    simp [List.append_assoc]

/-- Rebuilding one saved record recovers it exactly, provided its phones
are valid and duplicate-free and its birthday is a real date. -/
theorem loadRecord_eq (nm : PyStr) (r : Record) (hnm : r.name = nm)
    (hv : ∀ p ∈ r.phones, Phone.init p = some p) (hnd : r.phones.Nodup)
    (hbd : ∀ dd, r.birthday = some dd → validDate dd = true) :
    loadRecord nm ⟨r.phones, r.birthday.map formatDMY⟩ = r := by
  rcases r with ⟨rn, rp, rb⟩
  simp only at hnm hv hnd hbd
  subst hnm
  have hl : loadPhones (Record.init rn) rp = ⟨rn, rp, none⟩ := by
    have := loadPhones_spec rp (Record.init rn) hv
      (by simpa [Record.init] using hnd)
    simpa [Record.init] using this
  cases rb with
  | none => simp [loadRecord, hl]
  | some dd =>
    have hvd : validDate dd = true := hbd dd rfl
    have hrt := strptime_format_roundtrip dd hvd
    simp [loadRecord, hl, Record.add_birthday, Birthday.init, hrt,
      formatDMY_ne_nil]

/-- Writing a fresh key appends at the end of the dictionary. -/
theorem dictSet_append (book : AddressBook) (n : PyStr) (rec : Record)
    (h : n ∉ book.map Prod.fst) :
    dictSet book n rec = book ++ [(n, rec)] := by
  induction book with
  | nil => simp [dictSet]
  | cons kv rest ih =>
    have hk : ¬ kv.1 = n := fun e => by
      rw [List.map_cons] at h
      exact h (by rw [← e]; exact List.mem_cons_self _ _)
    have h' : n ∉ rest.map Prod.fst := fun hm => by
      rw [List.map_cons] at h
      exact h (List.mem_cons_of_mem _ hm)
    simp only [dictSet, if_neg hk, ih h', List.cons_append]

/-- The reconstruction fold over a saved well-formed book appends its
records to the accumulator unchanged. -/
theorem load_fold_append (book : AddressBook) : ∀ acc : AddressBook,
    ((acc ++ book).map Prod.fst).Nodup →
    (∀ kv ∈ book, (kv.2).name = kv.1) →
    (∀ kv ∈ book, ∀ p ∈ (kv.2).phones, Phone.init p = some p) →
    (∀ kv ∈ book, ((kv.2).phones).Nodup) →
    (∀ kv ∈ book, ∀ dd, (kv.2).birthday = some dd → validDate dd = true) →
    List.foldl (fun bk kv => bk.add_record (loadRecord kv.1 kv.2)) acc
      (save_address_book book) = acc ++ book := by
  induction book with
  | nil =>
    intro acc _ _ _ _ _
    simp [save_address_book]
  | cons kv rest ih =>
    intro acc hnd hnames hphones hpnd hbd
    have hkvn : (kv.2).name = kv.1 := hnames kv (List.mem_cons_self _ _)
    have hsave : save_address_book (kv :: rest) =
        (kv.1, ⟨(kv.2).phones, ((kv.2).birthday).map formatDMY⟩) ::
          save_address_book rest := rfl
    rw [hsave, List.foldl_cons]
    have hrec : loadRecord kv.1
        ⟨(kv.2).phones, ((kv.2).birthday).map formatDMY⟩ = kv.2 :=
      loadRecord_eq kv.1 kv.2 hkvn
        (hphones kv (List.mem_cons_self _ _)) (hpnd kv (List.mem_cons_self _ _))
        (hbd kv (List.mem_cons_self _ _))
    have hfresh : (kv.2).name ∉ acc.map Prod.fst := by
      rw [hkvn]
      intro hm
      rw [List.map_append, List.nodup_append] at hnd
      exact hnd.2.2 hm (by rw [List.map_cons]; exact List.mem_cons_self _ _)
    have hstep : acc.add_record kv.2 = acc ++ [kv] := by
      unfold AddressBook.add_record
      rw [dictSet_append acc (kv.2).name kv.2 hfresh, hkvn]
    show List.foldl _ (acc.add_record (loadRecord kv.1
      ⟨(kv.2).phones, ((kv.2).birthday).map formatDMY⟩)) (save_address_book rest) =
      acc ++ kv :: rest
    rw [hrec, hstep,
      ih (acc ++ [kv]) (by simpa [List.append_assoc] using hnd)
        (fun q hq => hnames q (List.mem_cons_of_mem _ hq))
        (fun q hq => hphones q (List.mem_cons_of_mem _ hq))
        (fun q hq => hpnd q (List.mem_cons_of_mem _ hq))
        (fun q hq => hbd q (List.mem_cons_of_mem _ hq))]
    simp [List.append_assoc]

/-- Claim C9, counterexample: a contact holding the validated phone
`"1111111111"` twice (a state `edit_phone` can produce) loses the duplicate
on a save/load round trip, so the reconstructed triples differ from the
originals. -/
theorem roundtrip_drops_duplicate_phones :
    load_address_book (save_address_book
        [(['A'], ⟨['A'], [ones10, ones10], none⟩)]) =
      [(['A'], ⟨['A'], [ones10], none⟩)] ∧
    ([(['A'], (⟨['A'], [ones10], none⟩ : Record))] : AddressBook) ≠
      [(['A'], ⟨['A'], [ones10, ones10], none⟩)] := by
  refine ⟨by decide, by decide⟩

/-- Claim C9, amended: for a well-formed directory — unique names, each
record stored under its own name, only validated phones with no duplicate
phone values inside a contact, and only real birthday dates — serialising
to the keyed layout (birthdays rendered day.month.year) and reconstructing
yields the directory back exactly: same names, same phones in the same
order, same birthdays. -/
theorem save_load_roundtrip (book : AddressBook)
    (hkeys : (book.map Prod.fst).Nodup)
    (hnames : ∀ kv ∈ book, (kv.2).name = kv.1)
    (hphones : ∀ kv ∈ book, ∀ p ∈ (kv.2).phones, Phone.init p = some p)
    (hpnd : ∀ kv ∈ book, ((kv.2).phones).Nodup)
    (hbd : ∀ kv ∈ book, ∀ dd, (kv.2).birthday = some dd →
      validDate dd = true) :
    load_address_book (save_address_book book) = book := by
  unfold load_address_book
  simpa using load_fold_append book [] (by simpa using hkeys) hnames hphones
    hpnd hbd

/-- Closed instance of `save_load_roundtrip`. -/
theorem save_load_roundtrip_instance :
    load_address_book (save_address_book
        [(['A'], ⟨['A'], [ones10], some ⟨2024, 2, 29⟩⟩)]) =
      [(['A'], ⟨['A'], [ones10], some ⟨2024, 2, 29⟩⟩)] :=
  save_load_roundtrip _ (by decide) (by decide) (by decide) (by decide)
    (by decide)

end HW07
